import Mathlib

/-!
Verification of the Hoja-7 repository: a value-free policy constructor over a
most-likely-successor graph (`my_policy.py`) and fixed-policy evaluation
(`bellman.py`, `policy_eval.py`, `run.py`).

Embedding conventions:
* States are pairs `(id, tag)`; the source reads a state's semantic tag as the
  second tuple component (`s[1]`), so we model `MState := ℕ × String`.
* `math.inf` distances are modelled by `WithTop ℕ` (`⊤` = infinity).  The
  source's dict `d` (keyed by the enumerated states) is modelled as a total
  function with default `⊤` off the enumerated set; the code only ever reads
  keys it has inserted.
* Python floats are modelled by exact rationals `ℚ`; numpy vectors of length
  `S` are `Fin S → ℚ` and matrices are `Matrix (Fin S) (Fin S) ℚ`.
* `np.linalg.solve` is modelled as the unique solution of the linear system
  when the coefficient matrix is nonsingular and as a raised solver error
  (`Except.error`) when it is singular, matching `LinAlgError`.
* The `while queue:` relaxation loop is embedded as a fuel-indexed iteration
  `relaxFuel`; termination is proved separately and the finished map is the
  result at the first fuel that empties the queue (`Nat.find`).
-/

namespace Hoja7

/-- A state of the MDP as used by `my_policy.py`: an opaque identifier paired
with a semantic tag; the source accesses the tag as `s[1]`. -/
abbrev MState := ℕ × String

/-- The action alphabet of the lake MDP: four directional moves plus the
distinguished absorbing action `ABSORB` (the source's `⊥` action constant). -/
inductive Act where
  | UP
  | RIGHT
  | DOWN
  | LEFT
  | ABSORB
  deriving DecidableEq

open Act

/-- The fixed list of directional actions scanned by the relaxation loop in
`MyPolicy._build` (`for a in [UP, RIGHT, DOWN, LEFT]`). -/
def dirActions : List Act := [UP, RIGHT, DOWN, LEFT]

/-- The default tie-break tuple of `MyPolicy.__init__`:
`tie_break = (RIGHT, DOWN, LEFT, UP)`. -/
def defaultTie : List Act := [RIGHT, DOWN, LEFT, UP]

/-- The MDP interface consumed by `my_policy.py` and `run.py`:
`states` is the ordered duplicate-free result of `enumerate_states(mdp)`,
`transition s a` the finite list of `(successor, probability)` pairs,
`is_terminal` the terminal predicate, `actions` the legal actions at a state,
and `start` the start state. -/
structure MDP where
  states : List MState
  transition : MState → Act → List (MState × ℚ)
  is_terminal : MState → Bool
  actions : MState → List Act
  start : MState

/-- Python's `max(succs, key=lambda x: x[1])` on a nonempty list `h :: t`:
scan left to right keeping the current maximum, replacing it only on a
strictly larger key, so the first maximiser wins. -/
def pyMaxBySnd (h : MState × ℚ) (t : List (MState × ℚ)) : MState × ℚ :=
  t.foldl (fun b x => if b.2 < x.2 then x else b) h

/-- `MyPolicy._most_likely_successor`: the successor of highest transition
probability, the state itself when the transition list is empty. -/
def mostLikelySuccessor (m : MDP) (s : MState) (a : Act) : MState :=
  match m.transition s a with
  | [] => s
  | h :: t => (pyMaxBySnd h t).1

/-- Distance values: a hop count or `⊤` for `math.inf`. -/
abbrev DVal := WithTop ℕ

/-- A distance map, total with default `⊤`. -/
abbrev Dist := MState → DVal

/-- The body of the innermost relaxation step of `MyPolicy._build` for a fixed
popped state `t`, scanned state `s` and action `a`: skip terminal states;
otherwise if the most likely successor of `(s, a)` is `t` and the bound
strictly improves (`d[s] > d[s_next] + 1`), tighten `d[s]` and append `s` to
the queue. -/
def relaxPair (m : MDP) (t s : MState) (dq : Dist × List MState) (a : Act) :
    Dist × List MState :=
  if m.is_terminal s then dq
  else if mostLikelySuccessor m s a = t ∧ dq.1 t + 1 < dq.1 s then
    (Function.update dq.1 s (dq.1 t + 1), dq.2 ++ [s])
  else dq

/-- One iteration of the `while queue:` loop body for popped state `t`:
`for s in self._states: for a in [UP, RIGHT, DOWN, LEFT]: ...`. -/
def relaxInner (m : MDP) (t : MState) (dq : Dist × List MState) :
    Dist × List MState :=
  m.states.foldl (fun dq s => dirActions.foldl (relaxPair m t s) dq) dq

/-- The relaxation loop with explicit fuel: pop the queue front and run the
inner double loop, stopping when the queue is empty or the fuel runs out. -/
def relaxFuel (m : MDP) : ℕ → Dist × List MState → Dist × List MState
  | 0, c => c
  | _ + 1, (d, []) => (d, [])
  | n + 1, (d, t :: q) => relaxFuel m n (relaxInner m t (d, q))

/-- The initial distance map of `MyPolicy._build`: `math.inf` everywhere,
then `0` at every enumerated state tagged `"G"` or `"⊥"`. -/
def initD (m : MDP) : Dist := fun s =>
  if s ∈ m.states ∧ (s.2 = "G" ∨ s.2 = "⊥") then 0 else ⊤

/-- The initial queue: the seeds, appended in enumeration order. -/
def initQ (m : MDP) : List MState :=
  m.states.filter (fun s => s.2 = "G" ∨ s.2 = "⊥")

/-- The initial configuration of the relaxation loop. -/
def initC (m : MDP) : Dist × List MState := (initD m, initQ m)

/-- Number of `⊤` entries of a distance map over the enumerated states; the
first component of the termination measure of the relaxation loop. -/
def countInf (l : List MState) (d : Dist) : ℕ :=
  l.countP (fun s => decide (d s = ⊤))

/-- Sum of the finite entries of a distance map over the enumerated states;
the second component of the termination measure. -/
def sumFin (l : List MState) (d : Dist) : ℕ :=
  (l.map (fun s => (d s).untop' 0)).sum

/-- Strict lexicographic decrease of the measure `(countInf, sumFin)`:
every accepted relaxation update decreases it, since an update either turns a
`⊤` entry finite or strictly lowers a finite entry. -/
def DecLex (l : List MState) (d2 d1 : Dist) : Prop :=
  countInf l d2 < countInf l d1 ∨
    (countInf l d2 = countInf l d1 ∧ sumFin l d2 < sumFin l d1)

/-- `DecLex` is transitive. -/
def DecLex.trans {l : List MState} {d3 d2 d1 : Dist}
    (h32 : DecLex l d3 d2) (h21 : DecLex l d2 d1) : DecLex l d3 d1 := by
  rcases h32 with h | ⟨he, hs⟩ <;> rcases h21 with g | ⟨ge, gs⟩ <;>
    [left; left; left; right] <;> omega

/-- `countP` is monotone under pointwise implication of the predicates on the
members of the list. -/
def countP_le_of_imp {α : Type} (p q : α → Bool) :
    ∀ l : List α, (∀ x ∈ l, p x = true → q x = true) →
      l.countP p ≤ l.countP q := by
  intro l
  induction l with
  | nil => simp
  | cons a t ih =>
    intro h
    have ht := ih (fun x hx => h x (List.mem_cons_of_mem a hx))
    have h1 : (if p a then 1 else 0) ≤ (if q a then 1 else 0) := by
      by_cases hpa : p a = true
      · simp [hpa, h a (List.mem_cons_self a t) hpa]
      · simp only [Bool.not_eq_true] at hpa
        simp [hpa]
    simp only [List.countP_cons]
    omega

/-- `countP` drops strictly when the predicate weakens pointwise and fails at
a member where the weaker one held. -/
def countP_lt_of_imp {α : Type} (p q : α → Bool) :
    ∀ l : List α, (∀ x ∈ l, p x = true → q x = true) →
      ∀ x ∈ l, q x = true → p x = false → l.countP p < l.countP q := by
  intro l
  induction l with
  | nil => intro _ x hx; exact absurd hx (List.not_mem_nil x)
  | cons a t ih =>
    intro h x hx hqx hpx
    have hmono := countP_le_of_imp p q t (fun y hy => h y (List.mem_cons_of_mem a hy))
    simp only [List.countP_cons]
    rcases List.mem_cons.mp hx with rfl | hxt
    · have hp1 : (if p x then 1 else 0) = 0 := by simp [hpx]
      have hq1 : (if q x then 1 else 0) = 1 := by simp [hqx]
      omega
    · have hlt := ih (fun y hy => h y (List.mem_cons_of_mem a hy)) x hxt hqx hpx
      have h1 : (if p a then 1 else 0) ≤ (if q a then 1 else 0) := by
        by_cases hpa : p a = true
        · simp [hpa, h a (List.mem_cons_self a t) hpa]
        · simp only [Bool.not_eq_true] at hpa
          simp [hpa]
      omega

/-- An accepted update `d[s] := w` with `w < d[s]` at an enumerated state
strictly decreases the measure `(countInf, sumFin)` lexicographically. -/
def update_declex (l : List MState) (d : Dist) (s : MState) (w : DVal)
    (hs : s ∈ l) (hw : w < d s) :
    DecLex l (Function.update d s w) d := by
  obtain ⟨v, hv⟩ := WithTop.ne_top_iff_exists.mp (ne_top_of_lt hw)
  subst hv
  by_cases htop : d s = ⊤
  · left
    apply countP_lt_of_imp _ _ l _ s hs
    · simp [htop]
    · simp [Function.update_apply, WithTop.coe_ne_top]
    · intro x hx hpx
      by_cases hxs : x = s
      · subst hxs
        rw [decide_eq_true_eq] at hpx
        rw [Function.update_apply, if_pos rfl] at hpx
        exact absurd hpx WithTop.coe_ne_top
      · rw [decide_eq_true_eq] at hpx ⊢
        rwa [Function.update_apply, if_neg hxs] at hpx
  · right
    obtain ⟨u, hu⟩ := WithTop.ne_top_iff_exists.mp htop
    have hvu : v < u := by
      rw [← hu] at hw
      exact WithTop.coe_lt_coe.mp hw
    constructor
    · refine Nat.le_antisymm ?_ ?_ <;> apply countP_le_of_imp <;> intro x hx hpx <;>
        rw [decide_eq_true_eq] at hpx ⊢
      · by_cases hxs : x = s
        · subst hxs
          rw [Function.update_apply, if_pos rfl] at hpx
          exact absurd hpx WithTop.coe_ne_top
        · rwa [Function.update_apply, if_neg hxs] at hpx
      · by_cases hxs : x = s
        · subst hxs
          exact absurd hpx (hu ▸ WithTop.coe_ne_top)
        · rwa [Function.update_apply, if_neg hxs]
    · apply List.sum_lt_sum
      · intro x hx
        by_cases hxs : x = s
        · subst hxs
          rw [Function.update_apply, if_pos rfl, ← hu,
            WithTop.untop'_coe, WithTop.untop'_coe]
          omega
        · rw [Function.update_apply, if_neg hxs]
      · refine ⟨s, hs, ?_⟩
        rw [Function.update_apply, if_pos rfl, ← hu,
          WithTop.untop'_coe, WithTop.untop'_coe]
        exact hvu

/-- Case analysis on one relaxation micro-step: either it leaves the
configuration unchanged, or the scanned state is non-terminal, its most likely
successor is the popped state, the new bound is strictly better, and the step
performs exactly the dictionary update and the queue append. -/
def relaxPair_spec (m : MDP) (t s : MState) (dq : Dist × List MState) (a : Act) :
    relaxPair m t s dq a = dq ∨
      (m.is_terminal s = false ∧ mostLikelySuccessor m s a = t ∧
        dq.1 t + 1 < dq.1 s ∧
        relaxPair m t s dq a =
          (Function.update dq.1 s (dq.1 t + 1), dq.2 ++ [s])) := by
  unfold relaxPair
  by_cases hterm : m.is_terminal s
  · left; simp [hterm]
  · by_cases hcond : mostLikelySuccessor m s a = t ∧ dq.1 t + 1 < dq.1 s
    · right
      simp only [Bool.not_eq_true] at hterm
      exact ⟨hterm, hcond.1, hcond.2, by simp [hterm, hcond]⟩
    · left; simp [hterm, hcond]

/-- One relaxation micro-step at an enumerated state either leaves the
configuration unchanged or strictly decreases the measure. -/
def relaxPair_declex (m : MDP) (t s : MState) (dq : Dist × List MState) (a : Act)
    (hs : s ∈ m.states) :
    relaxPair m t s dq a = dq ∨
      DecLex m.states (relaxPair m t s dq a).1 dq.1 := by
  rcases relaxPair_spec m t s dq a with h | ⟨_, _, hlt, heq⟩
  · exact Or.inl h
  · right
    rw [heq]
    exact update_declex m.states dq.1 s (dq.1 t + 1) hs hlt

/-- Folding relaxation micro-steps over the action list preserves
"unchanged or measure decrease". -/
def foldl_relaxPair_declex (m : MDP) (t s : MState) (hs : s ∈ m.states) :
    ∀ (as : List Act) (dq : Dist × List MState),
      as.foldl (relaxPair m t s) dq = dq ∨
        DecLex m.states (as.foldl (relaxPair m t s) dq).1 dq.1 := by
  intro as
  induction as with
  | nil => intro dq; exact Or.inl rfl
  | cons a rest ih =>
    intro dq
    rcases relaxPair_declex m t s dq a hs with heq | hlex
    · rw [List.foldl_cons, heq]
      exact ih dq
    · rcases ih (relaxPair m t s dq a) with hrest | hrest
      · rw [List.foldl_cons, hrest]
        exact Or.inr hlex
      · rw [List.foldl_cons]
        exact Or.inr (DecLex.trans hrest hlex)

/-- The whole inner double loop of one `while` iteration either leaves the
configuration unchanged or strictly decreases the measure. -/
def relaxInner_declex (m : MDP) (t : MState) (dq : Dist × List MState) :
    relaxInner m t dq = dq ∨ DecLex m.states (relaxInner m t dq).1 dq.1 := by
  unfold relaxInner
  have key : ∀ (l : List MState), (∀ x ∈ l, x ∈ m.states) → ∀ dq,
      l.foldl (fun dq s => dirActions.foldl (relaxPair m t s) dq) dq = dq ∨
        DecLex m.states
          (l.foldl (fun dq s => dirActions.foldl (relaxPair m t s) dq) dq).1 dq.1 := by
    intro l
    induction l with
    | nil => intro _ dq; exact Or.inl rfl
    | cons s rest ih =>
      intro hmem dq
      rcases foldl_relaxPair_declex m t s (hmem s (List.mem_cons_self s rest))
          dirActions dq with heq | hlex
      · simp only [List.foldl_cons]
        rw [heq]
        exact ih (fun x hx => hmem x (List.mem_cons_of_mem s hx)) dq
      · rcases ih (fun x hx => hmem x (List.mem_cons_of_mem s hx))
            (dirActions.foldl (relaxPair m t s) dq) with hrest | hrest
        · simp only [List.foldl_cons]
          rw [hrest]
          exact Or.inr hlex
        · simp only [List.foldl_cons]
          exact Or.inr (DecLex.trans hrest hlex)
  exact key m.states (fun x hx => hx) dq

/-- The relaxation loop empties its queue after finitely many iterations:
each iteration pops one element and re-enqueues states only together with a
strict, lexicographically measured decrease of the distance map, which is
bounded below. -/
def relax_fuel_exists_aux (m : MDP) :
    ∀ (x : ℕ × ℕ × ℕ) (d : Dist) (q : List MState),
      (countInf m.states d, sumFin m.states d, q.length) = x →
      ∃ n, (relaxFuel m n (d, q)).2 = [] := by
  have wf : WellFounded
      (Prod.Lex (· < ·) (Prod.Lex (· < ·) (· < · : ℕ → ℕ → Prop))) :=
    WellFounded.prod_lex (Nat.lt_wfRel.wf)
      (WellFounded.prod_lex Nat.lt_wfRel.wf Nat.lt_wfRel.wf)
  intro x
  induction x using wf.induction with
  | _ x ih =>
    intro d q hx
    subst hx
    match q with
    | [] => exact ⟨0, rfl⟩
    | t :: qt =>
      have hfuel : ∀ n, relaxFuel m (n + 1) (d, t :: qt) =
          relaxFuel m n (relaxInner m t (d, qt)) := fun n => rfl
      rcases relaxInner_declex m t (d, qt) with heq | hlex
      · obtain ⟨n, hn⟩ := ih (countInf m.states d, sumFin m.states d, qt.length)
          (Prod.Lex.right _ (Prod.Lex.right _ (by simp))) d qt rfl
        exact ⟨n + 1, by rw [hfuel n, heq]; exact hn⟩
      · rcases hq2 : relaxInner m t (d, qt) with ⟨d2, q2⟩
        rw [hq2] at hlex
        have hlex2 : Prod.Lex (· < ·) (Prod.Lex (· < ·) (· < · : ℕ → ℕ → Prop))
            (countInf m.states d2, sumFin m.states d2, q2.length)
            (countInf m.states d, sumFin m.states d, (t :: qt).length) := by
          rcases hlex with h1 | ⟨h1, h2⟩
          · exact Prod.Lex.left _ _ h1
          · rw [h1]
            exact Prod.Lex.right _ (Prod.Lex.left _ _ h2)
        obtain ⟨n, hn⟩ := ih _ hlex2 d2 q2 rfl
        exact ⟨n + 1, by rw [hfuel n, hq2]; exact hn⟩

/-- Termination of the relaxation from the initial configuration. -/
def relax_fuel_exists (m : MDP) : ∃ n, (relaxFuel m n (initC m)).2 = [] :=
  relax_fuel_exists_aux m _ (initD m) (initQ m) rfl

/-- The fuel at which the relaxation first finishes. -/
def relaxSteps (m : MDP) : ℕ := Nat.find (relax_fuel_exists m)

/-- The finished configuration of the relaxation loop. -/
def relaxRun (m : MDP) : Dist × List MState :=
  relaxFuel m (relaxSteps m) (initC m)

/-- The finished distance map `d` of `MyPolicy._build`. -/
def buildD (m : MDP) : Dist := (relaxRun m).1

/-- The effective distance used by the policy extraction loop: infinity when
the most likely successor is tagged as a hole (`s_next[1] == "H"`), otherwise
the stored distance of that successor. -/
def effDist (m : MDP) (d : Dist) (s : MState) (a : Act) : DVal :=
  if (mostLikelySuccessor m s a).2 = "H" then ⊤
  else d (mostLikelySuccessor m s a)

/-- The tie-break test of the extraction loop:
`best_a is None or self.tie_break.index(a) < self.tie_break.index(best_a)`.
Python's `tuple.index` raises on an action missing from the tuple; the model
uses `List.indexOf`, which returns the tuple length instead — the two agree
whenever the legal actions appearing in ties are members of the tuple, as
they are for the default tuple covering all four directions. -/
def tieBeats (tie : List Act) (a : Act) : Option Act → Bool
  | none => true
  | some ba => decide (tie.indexOf a < tie.indexOf ba)

/-- One step of the inner selection loop of `MyPolicy._build` on the running
`(best_a, best_d)` pair: replace the best when the candidate effective
distance is strictly smaller, or equal while `a` sits strictly earlier in the
tie-break tuple (or no best exists yet). -/
def selStep (m : MDP) (tie : List Act) (d : Dist) (s : MState)
    (b : Option Act × DVal) (a : Act) : Option Act × DVal :=
  if effDist m d s a < b.2 ∨
      (effDist m d s a = b.2 ∧ tieBeats tie a b.1 = true) then
    (some a, effDist m d s a)
  else b

/-- The inner selection loop of `MyPolicy._build` over the legal actions of a
state, threading the running pair from `(None, math.inf)`. -/
def selectAction (m : MDP) (tie : List Act) (d : Dist) (s : MState) :
    Option Act × DVal :=
  (m.actions s).foldl (selStep m tie d s) (none, ⊤)

/-- One step of the policy-extraction loop: skip terminal states, and store
the selected best action when one exists (`if best_a is not None`). -/
def extStep (m : MDP) (tie : List Act) (d : Dist)
    (pol : MState → Option Act) (s : MState) : MState → Option Act :=
  if m.is_terminal s then pol
  else
    match (selectAction m tie d s).1 with
    | none => pol
    | some a => Function.update pol s (some a)

/-- The policy-extraction loop of `MyPolicy._build` over the enumerated
states, starting from the empty dictionary. -/
def extractPolicy (m : MDP) (tie : List Act) (d : Dist) : MState → Option Act :=
  m.states.foldl (extStep m tie d) (fun _ => none)

/-- The selection order realised by the extraction loop: `a` is at least as
good as `b` when its effective distance is strictly smaller, or equal with a
tie-break position at most that of `b`. -/
def actBetter (m : MDP) (tie : List Act) (d : Dist) (s : MState)
    (a b : Act) : Prop :=
  effDist m d s a < effDist m d s b ∨
    (effDist m d s a = effDist m d s b ∧ tie.indexOf a ≤ tie.indexOf b)

/-- The entropy source accepted by `MyPolicy.__init__` for interface
compatibility; the constructor stores it but never consults it. -/
structure RNG where
  seed : ℕ

/-- `MyPolicy.__init__` followed by `_build`: the finished state-to-action
dictionary.  The `rng` argument is accepted and ignored, exactly as in the
source, where it is stored but never used during construction. -/
def MyPolicyBuild (m : MDP) (rng : RNG) (tie : List Act) : MState → Option Act :=
  extractPolicy m tie (buildD m)

/-- `MyPolicy._decision`: `self._policy.get(s, ABSORB)`. -/
def MyPolicyDecision (m : MDP) (rng : RNG) (tie : List Act) (s : MState) : Act :=
  (MyPolicyBuild m rng tie s).getD ABSORB

/-- Reachability of a terminal/goal seed (a state tagged `"G"` or `"⊥"`) in
the most-likely-successor graph, whose edges leave a non-terminal state by one
of the four scanned directional actions. -/
inductive Reaches (m : MDP) : MState → Prop where
  | seed (s : MState) (h : s.2 = "G" ∨ s.2 = "⊥") : Reaches m s
  | step (s : MState) (a : Act) (hterm : m.is_terminal s = false)
      (ha : a ∈ dirActions) (h : Reaches m (mostLikelySuccessor m s a)) :
      Reaches m s

/-! Numeric side: `bellman.py`, `policy_eval.py` and the dispatch of
`run.py`, over exact rationals. -/

/-- `bellman_update(v, P, r, gamma)`: `r + gamma * (P @ v)`. -/
def bellman_update {n : ℕ} (v : Fin n → ℚ) (P : Matrix (Fin n) (Fin n) ℚ)
    (r : Fin n → ℚ) (γ : ℚ) : Fin n → ℚ :=
  fun i => r i + γ * P.mulVec v i

/-- `np.max(np.abs(v - w))`, written as a fold with base `0`; since every
entry is an absolute value this agrees with numpy on every nonempty vector. -/
def supDiff {n : ℕ} (v w : Fin n → ℚ) : ℚ :=
  ((List.finRange n).map (fun i => |v i - w i|)).foldr max 0

/-- The `for _ in range(max_iters)` loop of `iterative_policy_evaluation`:
compute `v_new`, break (returning the current `v`, not `v_new`) as soon as
the supremum-norm change falls below the threshold, otherwise continue from
`v_new`. -/
def evalLoop {n : ℕ} (P : Matrix (Fin n) (Fin n) ℚ) (r : Fin n → ℚ)
    (γ eps : ℚ) : (Fin n → ℚ) → ℕ → (Fin n → ℚ)
  | v, 0 => v
  | v, k + 1 =>
    if supDiff (bellman_update v P r γ) v < eps * (1 - γ) / γ then v
    else evalLoop P r γ eps (bellman_update v P r γ) k

/-- `iterative_policy_evaluation(P, r, gamma, eps, max_iters)`: run the
bounded Bellman fixed-point loop from the zero vector. -/
def iterative_policy_evaluation {n : ℕ} (P : Matrix (Fin n) (Fin n) ℚ)
    (r : Fin n → ℚ) (γ eps : ℚ) (max_iters : ℕ) : Fin n → ℚ :=
  evalLoop P r γ eps (fun _ => 0) max_iters

/-- The default tolerance of `iterative_policy_evaluation` (`eps=1e-6`). -/
def defaultEps : ℚ := 1 / 1000000

/-- The default iteration budget of `iterative_policy_evaluation`. -/
def defaultMaxIters : ℕ := 100000

/-- The sequence of Bellman iterates from the zero vector: `bellmanIter k` is
the value vector after `k` Bellman applications. -/
def bellmanIter {n : ℕ} (P : Matrix (Fin n) (Fin n) ℚ) (r : Fin n → ℚ)
    (γ : ℚ) : ℕ → (Fin n → ℚ)
  | 0 => fun _ => 0
  | k + 1 => bellman_update (bellmanIter P r γ k) P r γ

/-- The stopping test of the iterative evaluator at iterate `k`: the change
produced by the next Bellman application is below `eps * (1 - γ) / γ`. -/
def stopCond {n : ℕ} (P : Matrix (Fin n) (Fin n) ℚ) (r : Fin n → ℚ)
    (γ eps : ℚ) (k : ℕ) : Prop :=
  supDiff (bellman_update (bellmanIter P r γ k) P r γ) (bellmanIter P r γ k) <
    eps * (1 - γ) / γ

/-- Row-stochasticity of a transition matrix. -/
def rowStochastic {n : ℕ} (P : Matrix (Fin n) (Fin n) ℚ) : Prop :=
  (∀ i j, 0 ≤ P i j) ∧ ∀ i, (∑ j, P i j) = 1

/-- The failures surfaced by the evaluation entry point: the
`ValueError(f"Unknown method ...")` of `run` and the `LinAlgError` raised by
`np.linalg.solve` on a singular system. -/
inductive EvalError where
  | unknownMethod (method : String)
  | singularMatrix
  deriving DecidableEq

/-- `exact_policy_evaluation(P, r, gamma)`: solve `(I - gamma P) v = r`.
`np.linalg.solve` raises on a singular matrix and otherwise returns the
unique solution, here written in adjugate form. -/
def exact_policy_evaluation {n : ℕ} (P : Matrix (Fin n) (Fin n) ℚ)
    (r : Fin n → ℚ) (γ : ℚ) : Except EvalError (Fin n → ℚ) :=
  if (1 - γ • P).det = 0 then Except.error EvalError.singularMatrix
  else Except.ok ((1 - γ • P).det⁻¹ • (1 - γ • P).adjugate.mulVec r)

/-- The method dispatch of `run(mdp, gamma, rng, method)` after the external
collaborators have assembled `P` and `r`: `"exact"` and `"iterative"` are the
only recognized selectors, anything else raises
`ValueError(f"Unknown method ...")` naming the offending value. -/
def run {n : ℕ} (P : Matrix (Fin n) (Fin n) ℚ) (r : Fin n → ℚ) (γ : ℚ)
    (method : String) : Except EvalError (Fin n → ℚ) :=
  if method = "exact" then exact_policy_evaluation P r γ
  else if method = "iterative" then
    Except.ok (iterative_policy_evaluation P r γ defaultEps defaultMaxIters)
  else Except.error (EvalError.unknownMethod method)

/-! Concrete instances used to exhibit behaviour at specific inputs. -/

/-- A non-terminal start state. -/
def exS : MState := (0, "S")

/-- A goal state. -/
def exG : MState := (1, "G")

/-- A hole state. -/
def exH : MState := (2, "H")

/-- An MDP whose non-terminal state `exS` has an empty legal-action set but
whose transition function still moves every directional action to the goal:
the relaxation (which scans the four fixed directions) assigns it a finite
distance although no legal action exists. -/
def mdpC9 : MDP where
  states := [exG, exS]
  transition := fun s _ => if s = exS then [(exG, 1)] else []
  is_terminal := fun s => decide (s.2 = "G")
  actions := fun _ => []
  start := exS

/-- An MDP with a goal and an isolated plain state whose every transition
list is empty, so all its most-likely-successor edges are self-loops and no
seed is reachable from it. -/
def mdpW4 : MDP where
  states := [exG, (3, "S")]
  transition := fun _ _ => []
  is_terminal := fun s => decide (s.2 = "G")
  actions := fun _ => dirActions
  start := (3, "S")

/-- An MDP with a goal and a hole; the hole is terminal, as in the lake MDP. -/
def mdpW10 : MDP where
  states := [exG, exH]
  transition := fun s _ => if s = exH then [(exG, 1)] else []
  is_terminal := fun s => decide (s.2 = "G" ∨ s.2 = "H")
  actions := fun _ => dirActions
  start := exH

/-- A two-cell corridor: `RIGHT` moves from the start into the goal, `LEFT`
stays put, the two other directions have empty transition lists. -/
def mdpW2 : MDP where
  states := [exS, exG]
  transition := fun s a =>
    if s = exS ∧ a = RIGHT then [(exG, 1)]
    else if s = exS ∧ a = LEFT then [(exS, 1)]
    else []
  is_terminal := fun s => decide (s.2 = "G")
  actions := fun s => if s = exS then [RIGHT, LEFT] else []
  start := exS

/-- An MDP with one transition list containing a tie for the maximal
probability, to exhibit the first-maximiser tie-break of
`_most_likely_successor`. -/
def mdpW3 : MDP where
  states := [exS]
  transition := fun s a =>
    if s = exS ∧ a = UP then [((4, "F"), 1/2), ((5, "F"), 1/2), ((6, "F"), 1/4)]
    else []
  is_terminal := fun _ => false
  actions := fun _ => dirActions
  start := exS

/-- The 1×1 all-ones transition matrix. -/
def Pone : Matrix (Fin 1) (Fin 1) ℚ := fun _ _ => 1

/-- The 1-dimensional all-ones reward vector. -/
def rone : Fin 1 → ℚ := fun _ => 1

/-! Helper lemmas about the fuel-indexed relaxation loop. -/

theorem relaxFuel_empty (m : MDP) (n : ℕ) (d : Dist) :
    relaxFuel m n (d, []) = (d, []) := by
  cases n <;> rfl

theorem relaxFuel_add (m : MDP) (a b : ℕ) :
    ∀ c, relaxFuel m (a + b) c = relaxFuel m b (relaxFuel m a c) := by
  induction a with
  | zero => intro c; rw [Nat.zero_add]; rfl
  | succ a ih =>
    intro c
    rcases c with ⟨d, q⟩
    cases q with
    | nil => rw [relaxFuel_empty, relaxFuel_empty, relaxFuel_empty]
    | cons t qt =>
      have h1 : a + 1 + b = (a + b) + 1 := by omega
      rw [h1]
      show relaxFuel m (a + b) (relaxInner m t (d, qt)) = _
      rw [ih (relaxInner m t (d, qt))]
      rfl

theorem relaxFuel_stable (m : MDP) (n : ℕ) (c : Dist × List MState)
    (h : (relaxFuel m n c).2 = []) (k : ℕ) :
    relaxFuel m (n + k) c = relaxFuel m n c := by
  rw [relaxFuel_add]
  rcases hr : relaxFuel m n c with ⟨d, q⟩
  rw [hr] at h
  have hq : q = [] := h
  subst hq
  exact relaxFuel_empty m k d

theorem relaxFuel_congr (m : MDP) (n1 n2 : ℕ) (c : Dist × List MState)
    (h1 : (relaxFuel m n1 c).2 = []) (h2 : (relaxFuel m n2 c).2 = []) :
    relaxFuel m n1 c = relaxFuel m n2 c := by
  rcases Nat.le_total n1 n2 with h | h
  · obtain ⟨k, rfl⟩ := Nat.le.dest h
    exact (relaxFuel_stable m n1 c h1 k).symm
  · obtain ⟨k, rfl⟩ := Nat.le.dest h
    exact relaxFuel_stable m n2 c h2 k

theorem buildD_eq_of_fuel (m : MDP) (n : ℕ)
    (h : (relaxFuel m n (initC m)).2 = []) :
    buildD m = (relaxFuel m n (initC m)).1 :=
  congrArg Prod.fst
    (relaxFuel_congr m (relaxSteps m) n (initC m)
      (Nat.find_spec (relax_fuel_exists m)) h)

/-! Pointwise monotonicity of the relaxation. -/

theorem relaxPair_le (m : MDP) (t s : MState) (dq : Dist × List MState)
    (a : Act) (x : MState) : (relaxPair m t s dq a).1 x ≤ dq.1 x := by
  rcases relaxPair_spec m t s dq a with h | ⟨_, _, hlt, heq⟩
  · rw [h]
  · rw [heq]
    show Function.update dq.1 s (dq.1 t + 1) x ≤ dq.1 x
    by_cases hxs : x = s
    · subst hxs
      rw [Function.update_apply, if_pos rfl]
      exact le_of_lt hlt
    · rw [Function.update_apply, if_neg hxs]

theorem foldl_relaxPair_le (m : MDP) (t s : MState) (as : List Act) :
    ∀ (dq : Dist × List MState) (x : MState),
      (as.foldl (relaxPair m t s) dq).1 x ≤ dq.1 x := by
  induction as with
  | nil => intro dq x; exact le_refl _
  | cons a rest ih =>
    intro dq x
    rw [List.foldl_cons]
    exact le_trans (ih (relaxPair m t s dq a) x) (relaxPair_le m t s dq a x)

theorem foldl_states_le (m : MDP) (t : MState) (l : List MState) :
    ∀ (dq : Dist × List MState) (x : MState),
      (l.foldl (fun dq s => dirActions.foldl (relaxPair m t s) dq) dq).1 x ≤
        dq.1 x := by
  induction l with
  | nil => intro dq x; exact le_refl _
  | cons s rest ih =>
    intro dq x
    simp only [List.foldl_cons]
    exact le_trans (ih _ x) (foldl_relaxPair_le m t s dirActions dq x)

theorem relaxInner_le (m : MDP) (t : MState) (dq : Dist × List MState)
    (x : MState) : (relaxInner m t dq).1 x ≤ dq.1 x :=
  foldl_states_le m t m.states dq x

theorem relaxFuel_le (m : MDP) :
    ∀ (n : ℕ) (c : Dist × List MState) (x : MState),
      (relaxFuel m n c).1 x ≤ c.1 x := by
  intro n
  induction n with
  | zero => intro c x; exact le_refl _
  | succ n ih =>
    intro c x
    rcases c with ⟨d, q⟩
    cases q with
    | nil => exact le_refl _
    | cons t qt =>
      exact le_trans (ih (relaxInner m t (d, qt)) x) (relaxInner_le m t (d, qt) x)

theorem relaxFuel_succ_le (m : MDP) :
    ∀ (n : ℕ) (c : Dist × List MState) (x : MState),
      (relaxFuel m (n + 1) c).1 x ≤ (relaxFuel m n c).1 x := by
  intro n
  induction n with
  | zero =>
    intro c x
    rcases c with ⟨d, q⟩
    cases q with
    | nil => exact le_refl _
    | cons t qt => exact relaxInner_le m t (d, qt) x
  | succ n ih =>
    intro c x
    rcases c with ⟨d, q⟩
    cases q with
    | nil => exact le_refl _
    | cons t qt => exact ih (relaxInner m t (d, qt)) x

/-! A generic invariant-preservation principle for the relaxation: any
predicate on distance maps closed under the accepted update is preserved by
the whole loop. -/

theorem relaxPair_inv (m : MDP) (Φ : Dist → Prop)
    (hstep : ∀ (d : Dist) (s : MState) (a : Act),
      s ∈ m.states → m.is_terminal s = false → a ∈ dirActions →
      d (mostLikelySuccessor m s a) + 1 < d s →
      Φ d → Φ (Function.update d s (d (mostLikelySuccessor m s a) + 1)))
    (t s : MState) (hs : s ∈ m.states) (a : Act) (ha : a ∈ dirActions)
    (dq : Dist × List MState) (hΦ : Φ dq.1) : Φ (relaxPair m t s dq a).1 := by
  rcases relaxPair_spec m t s dq a with h | ⟨hterm, hmls, hlt, heq⟩
  · rw [h]; exact hΦ
  · rw [heq]
    have hres := hstep dq.1 s a hs hterm ha (by rw [hmls]; exact hlt) hΦ
    rw [hmls] at hres
    exact hres

theorem foldl_relaxPair_inv (m : MDP) (Φ : Dist → Prop)
    (hstep : ∀ (d : Dist) (s : MState) (a : Act),
      s ∈ m.states → m.is_terminal s = false → a ∈ dirActions →
      d (mostLikelySuccessor m s a) + 1 < d s →
      Φ d → Φ (Function.update d s (d (mostLikelySuccessor m s a) + 1)))
    (t s : MState) (hs : s ∈ m.states) :
    ∀ (as : List Act), (∀ a ∈ as, a ∈ dirActions) →
      ∀ (dq : Dist × List MState), Φ dq.1 →
        Φ ((as.foldl (relaxPair m t s) dq)).1 := by
  intro as
  induction as with
  | nil => intro _ dq hΦ; exact hΦ
  | cons a rest ih =>
    intro hmem dq hΦ
    rw [List.foldl_cons]
    exact ih (fun b hb => hmem b (List.mem_cons_of_mem a hb)) _
      (relaxPair_inv m Φ hstep t s hs a (hmem a (List.mem_cons_self a rest)) dq hΦ)

theorem relaxInner_inv (m : MDP) (Φ : Dist → Prop)
    (hstep : ∀ (d : Dist) (s : MState) (a : Act),
      s ∈ m.states → m.is_terminal s = false → a ∈ dirActions →
      d (mostLikelySuccessor m s a) + 1 < d s →
      Φ d → Φ (Function.update d s (d (mostLikelySuccessor m s a) + 1)))
    (t : MState) (dq : Dist × List MState) (hΦ : Φ dq.1) :
    Φ (relaxInner m t dq).1 := by
  unfold relaxInner
  have key : ∀ (l : List MState), (∀ x ∈ l, x ∈ m.states) →
      ∀ dq, Φ (Prod.fst dq) →
        Φ ((l.foldl (fun dq s => dirActions.foldl (relaxPair m t s) dq) dq)).1 := by
    intro l
    induction l with
    | nil => intro _ dq hd; exact hd
    | cons s rest ih =>
      intro hmem dq hd
      simp only [List.foldl_cons]
      exact ih (fun x hx => hmem x (List.mem_cons_of_mem s hx)) _
        (foldl_relaxPair_inv m Φ hstep t s (hmem s (List.mem_cons_self s rest))
          dirActions (fun a ha => ha) dq hd)
  exact key m.states (fun x hx => hx) dq hΦ

theorem relaxFuel_inv (m : MDP) (Φ : Dist → Prop)
    (hstep : ∀ (d : Dist) (s : MState) (a : Act),
      s ∈ m.states → m.is_terminal s = false → a ∈ dirActions →
      d (mostLikelySuccessor m s a) + 1 < d s →
      Φ d → Φ (Function.update d s (d (mostLikelySuccessor m s a) + 1))) :
    ∀ (n : ℕ) (c : Dist × List MState), Φ c.1 → Φ (relaxFuel m n c).1 := by
  intro n
  induction n with
  | zero => intro c hΦ; exact hΦ
  | succ n ih =>
    intro c hΦ
    rcases c with ⟨d, q⟩
    cases q with
    | nil => exact hΦ
    | cons t qt =>
      exact ih (relaxInner m t (d, qt)) (relaxInner_inv m Φ hstep t (d, qt) hΦ)

/-- Claim C5: for every finite MDP, the relaxation while-loop of the policy
builder terminates, including in the presence of cycles in the
most-likely-successor graph: there is a fuel at which the queue is empty and
at which the loop has reached its finished configuration, because a state is
re-enqueued only together with a strict decrease of a measure that is
bounded below. -/
theorem relaxation_terminates (m : MDP) :
    ∃ n, (relaxFuel m n (initC m)).2 = [] ∧
      relaxFuel m n (initC m) = relaxRun m := by
  obtain ⟨n, hn⟩ := relax_fuel_exists m
  exact ⟨n, hn, relaxFuel_congr m n (relaxSteps m) (initC m) hn
    (Nat.find_spec (relax_fuel_exists m))⟩

/-- Claim C4: throughout the multi-source relaxation every state's distance
value only decreases, never increases; states seeded at distance 0 (the
enumerated states tagged `"G"` or `"⊥"`) keep distance 0 for the whole run;
and every non-terminal state from which no terminal/goal seed is reachable in
the most-likely-successor graph retains distance infinity in the finished
map. -/
theorem relaxation_invariants (m : MDP) :
    (∀ n x, (relaxFuel m (n + 1) (initC m)).1 x ≤ (relaxFuel m n (initC m)).1 x) ∧
    (∀ s, s ∈ m.states → (s.2 = "G" ∨ s.2 = "⊥") →
      (∀ n, (relaxFuel m n (initC m)).1 s = 0) ∧ buildD m s = 0) ∧
    (∀ s, m.is_terminal s = false → ¬Reaches m s → buildD m s = ⊤) := by
  refine ⟨fun n x => relaxFuel_succ_le m n (initC m) x,
    fun s hs htag => ?_, fun s hterm hnr => ?_⟩
  · have h0 : initD m s = 0 := by
      unfold initD
      rw [if_pos ⟨hs, htag⟩]
    have hall : ∀ n, (relaxFuel m n (initC m)).1 s = 0 := by
      intro n
      have hle := relaxFuel_le m n (initC m) s
      rw [show (initC m).1 = initD m from rfl, h0] at hle
      exact le_antisymm hle (zero_le _)
    exact ⟨hall, hall (relaxSteps m)⟩
  · have hstep : ∀ (d : Dist) (s2 : MState) (a : Act),
        s2 ∈ m.states → m.is_terminal s2 = false → a ∈ dirActions →
        d (mostLikelySuccessor m s2 a) + 1 < d s2 →
        (∀ x, d x ≠ ⊤ → Reaches m x) →
        ∀ x, Function.update d s2 (d (mostLikelySuccessor m s2 a) + 1) x ≠ ⊤ →
          Reaches m x := by
      intro d s2 a _ hterm2 ha hlt hΦ x hx
      by_cases hxs : x = s2
      · subst hxs
        have hfin : d (mostLikelySuccessor m x a) ≠ ⊤ := by
          intro htop
          rw [htop, top_add] at hlt
          exact not_top_lt hlt
        exact Reaches.step x a hterm2 ha (hΦ _ hfin)
      · rw [Function.update_apply, if_neg hxs] at hx
        exact hΦ x hx
    have hinit : ∀ x, initD m x ≠ ⊤ → Reaches m x := by
      intro x hx
      by_cases hc : x ∈ m.states ∧ (x.2 = "G" ∨ x.2 = "⊥")
      · exact Reaches.seed x hc.2
      · exact absurd (by unfold initD; rw [if_neg hc]) hx
    have hinv := relaxFuel_inv m (fun d => ∀ x, d x ≠ ⊤ → Reaches m x)
      hstep (relaxSteps m) (initC m) hinit
    by_contra hne
    exact hnr (hinv s hne)

/-- Claim C10: when hole-tagged states are terminal (as they are in the lake
MDP), every state tagged `"H"` retains distance infinity in the finished
distance map — holes are never seeded and terminal states are never relaxed —
and hence the extractor's hole-override to infinity never replaces a finite
stored value. -/
theorem holes_keep_infinity (m : MDP)
    (hH : ∀ s ∈ m.states, s.2 = "H" → m.is_terminal s = true) :
    (∀ s, s.2 = "H" → buildD m s = ⊤) ∧
    (∀ s a, (mostLikelySuccessor m s a).2 = "H" →
      effDist m (buildD m) s a = buildD m (mostLikelySuccessor m s a)) := by
  have hstep : ∀ (d : Dist) (s2 : MState) (a : Act),
      s2 ∈ m.states → m.is_terminal s2 = false → a ∈ dirActions →
      d (mostLikelySuccessor m s2 a) + 1 < d s2 →
      (∀ x, x.2 = "H" → d x = ⊤) →
      ∀ x, x.2 = "H" →
        Function.update d s2 (d (mostLikelySuccessor m s2 a) + 1) x = ⊤ := by
    intro d s2 a hs2 hterm2 _ _ hΦ x hx
    by_cases hxs : x = s2
    · subst hxs
      rw [hH x hs2 hx] at hterm2
      exact absurd hterm2 (by simp)
    · rw [Function.update_apply, if_neg hxs]
      exact hΦ x hx
  have hinit : ∀ x, x.2 = "H" → initD m x = ⊤ := by
    intro x hx
    unfold initD
    rw [if_neg]
    rintro ⟨-, h | h⟩ <;> rw [hx] at h <;> exact absurd h (by decide)
  have hinv := relaxFuel_inv m (fun d => ∀ x, x.2 = "H" → d x = ⊤)
    hstep (relaxSteps m) (initC m) hinit
  refine ⟨fun s hs => hinv s hs, fun s a hmls => ?_⟩
  unfold effDist
  rw [if_pos hmls]
  exact (hinv _ hmls).symm

/-- In `mdpW4` every transition list is empty, so each most-likely-successor
edge is a self-loop and a reachability chain can only start at a seed tag. -/
theorem mdpW4_reach_tags : ∀ x, Reaches mdpW4 x → x.2 = "G" ∨ x.2 = "⊥" := by
  intro x h
  induction h with
  | seed s hs => exact hs
  | step s a hterm ha hr ih =>
    have hm : mostLikelySuccessor mdpW4 s a = s := rfl
    rw [hm] at ih
    exact ih

/-- Witness for claim C4 at a concrete MDP: the goal seed finishes at
distance 0 and the isolated non-terminal state finishes at infinity. -/
theorem relaxation_invariants_witness :
    buildD mdpW4 exG = 0 ∧ buildD mdpW4 (3, "S") = ⊤ := by
  refine ⟨((relaxation_invariants mdpW4).2.1 exG (by decide) (Or.inl rfl)).2, ?_⟩
  refine (relaxation_invariants mdpW4).2.2 (3, "S") (by decide) ?_
  intro h
  rcases mdpW4_reach_tags _ h with h2 | h2 <;> exact absurd h2 (by decide)

/-- Witness for claim C10 at a concrete MDP with a terminal hole. -/
theorem holes_keep_infinity_witness : buildD mdpW10 exH = ⊤ :=
  (holes_keep_infinity mdpW10 (by decide)).1 exH rfl

/-- Claim C9: the relaxation loop scans the four fixed directional actions
rather than the state's legal action set: in `mdpC9` the non-terminal state
`exS` has an empty legal-action set, yet the finished distance map assigns it
the finite distance 1 through a scanned directional action, while the policy
extractor — which considers only legal actions — gives it no policy entry, so
the policy query falls back to the absorbing action. -/
theorem relaxation_scans_fixed_actions :
    buildD mdpC9 exS = 1 ∧ mdpC9.actions exS = [] ∧
      mdpC9.is_terminal exS = false ∧
      MyPolicyBuild mdpC9 ⟨0⟩ defaultTie exS = none ∧
      MyPolicyDecision mdpC9 ⟨0⟩ defaultTie exS = ABSORB := by
  have hfuel : (relaxFuel mdpC9 2 (initC mdpC9)).2 = [] := by decide
  have hb := buildD_eq_of_fuel mdpC9 2 hfuel
  refine ⟨?_, by decide, by decide, ?_, ?_⟩
  · rw [hb]; decide
  · show extractPolicy mdpC9 defaultTie (buildD mdpC9) exS = none
    rw [hb]
    decide
  · show (extractPolicy mdpC9 defaultTie (buildD mdpC9) exS).getD ABSORB = ABSORB
    rw [hb]
    decide

/-- Python's `max` over a nonempty list with a key function returns the first
element attaining the maximal key: the list decomposes around the result, all
earlier elements have strictly smaller keys, and no element has a larger
key. -/
theorem pyMaxBySnd_spec :
    ∀ (t : List (MState × ℚ)) (h : MState × ℚ),
      ∃ pre post, h :: t = pre ++ pyMaxBySnd h t :: post ∧
        (∀ p ∈ pre, p.2 < (pyMaxBySnd h t).2) ∧
        (∀ p ∈ h :: t, p.2 ≤ (pyMaxBySnd h t).2) := by
  intro t
  induction t with
  | nil =>
    intro h
    refine ⟨[], [], rfl, fun p hp => absurd hp (List.not_mem_nil p), ?_⟩
    intro p hp
    rw [List.mem_singleton.mp hp]
    exact le_refl _
  | cons y t2 ih =>
    intro h
    have hstep : pyMaxBySnd h (y :: t2) =
        pyMaxBySnd (if h.2 < y.2 then y else h) t2 := rfl
    by_cases hy : h.2 < y.2
    · obtain ⟨pre, post, hdec, hpre, hle⟩ := ih y
      rw [hstep, if_pos hy]
      have hyres : y.2 ≤ (pyMaxBySnd y t2).2 := hle y (List.mem_cons_self y t2)
      refine ⟨h :: pre, post, ?_, ?_, ?_⟩
      · rw [List.cons_append, ← hdec]
      · intro p hp
        rcases List.mem_cons.mp hp with rfl | hp2
        · exact lt_of_lt_of_le hy hyres
        · exact hpre p hp2
      · intro p hp
        rcases List.mem_cons.mp hp with rfl | hp2
        · exact le_of_lt (lt_of_lt_of_le hy hyres)
        · exact hle p hp2
    · obtain ⟨pre, post, hdec, hpre, hle⟩ := ih h
      rw [hstep, if_neg hy]
      have hyle : y.2 ≤ h.2 := le_of_not_lt hy
      cases pre with
      | nil =>
        rw [List.nil_append] at hdec
        injection hdec with h1 h2
        refine ⟨[], y :: t2, ?_, fun p hp => absurd hp (List.not_mem_nil p), ?_⟩
        · rw [List.nil_append, ← h1]
        · intro p hp
          rcases List.mem_cons.mp hp with rfl | hp2
          · rw [← h1]
          · rcases List.mem_cons.mp hp2 with rfl | hp3
            · rw [← h1]; exact hyle
            · exact hle p (List.mem_cons_of_mem h hp3)
      | cons p0 pre2 =>
        rw [List.cons_append] at hdec
        injection hdec with h1 h2
        have hhres : h.2 < (pyMaxBySnd h t2).2 := by
          have := hpre p0 (List.mem_cons_self p0 pre2)
          rw [← h1] at this
          exact this
        refine ⟨h :: y :: pre2, post, ?_, ?_, ?_⟩
        · rw [List.cons_append, List.cons_append, ← h2]
        · intro p hp
          rcases List.mem_cons.mp hp with rfl | hp2
          · exact hhres
          · rcases List.mem_cons.mp hp2 with rfl | hp3
            · exact lt_of_le_of_lt hyle hhres
            · exact hpre p (List.mem_cons_of_mem p0 hp3)
        · intro p hp
          rcases List.mem_cons.mp hp with rfl | hp2
          · exact hle _ (List.mem_cons_self _ t2)
          · rcases List.mem_cons.mp hp2 with rfl | hp3
            · exact le_trans hyle (hle _ (List.mem_cons_self _ t2))
            · exact hle p (List.mem_cons_of_mem _ hp3)

/-- Claim C3: for every state and action, the most-likely-successor function
returns the successor of highest transition probability among the pairs
listed by the MDP, taking the first one in the returned ordering on ties, and
returns the state itself when the transition list is empty. -/
theorem most_likely_successor_spec (m : MDP) (s : MState) (a : Act) :
    (m.transition s a = [] → mostLikelySuccessor m s a = s) ∧
    (∀ h t, m.transition s a = h :: t →
      ∃ pre best post, m.transition s a = pre ++ best :: post ∧
        mostLikelySuccessor m s a = best.1 ∧
        (∀ p ∈ pre, p.2 < best.2) ∧
        (∀ p ∈ m.transition s a, p.2 ≤ best.2)) := by
  constructor
  · intro he
    unfold mostLikelySuccessor
    rw [he]
  · intro h t he
    obtain ⟨pre, post, hdec, hpre, hle⟩ := pyMaxBySnd_spec t h
    refine ⟨pre, pyMaxBySnd h t, post, he.trans hdec, ?_, hpre, ?_⟩
    · unfold mostLikelySuccessor
      rw [he]
    · intro p hp
      rw [he] at hp
      exact hle p hp

/-- Witness for claim C3: a transition list with a tie for the maximal
probability; the first maximiser is selected. -/
theorem most_likely_successor_spec_witness :
    ∃ pre best post,
      mdpW3.transition exS UP = pre ++ best :: post ∧
      mostLikelySuccessor mdpW3 exS UP = best.1 ∧
      (∀ p ∈ pre, p.2 < best.2) ∧
      (∀ p ∈ mdpW3.transition exS UP, p.2 ≤ best.2) :=
  (most_likely_successor_spec mdpW3 exS UP).2 ((4, "F"), 1/2)
    [((5, "F"), 1/2), ((6, "F"), 1/4)] rfl

/-! The selection order of the extraction loop is a total preorder; the loop
computes its minimum with first-occurrence tie-breaking. -/

theorem actBetter_refl (m : MDP) (tie : List Act) (d : Dist) (s : MState)
    (a : Act) : actBetter m tie d s a a :=
  Or.inr ⟨rfl, le_refl _⟩

theorem actBetter_trans (m : MDP) (tie : List Act) (d : Dist) (s : MState)
    {a b c : Act} (hab : actBetter m tie d s a b)
    (hbc : actBetter m tie d s b c) : actBetter m tie d s a c := by
  rcases hab with h | ⟨he, hi⟩ <;> rcases hbc with g | ⟨ge, gi⟩
  · exact Or.inl (lt_trans h g)
  · exact Or.inl (lt_of_lt_of_le h (le_of_eq ge))
  · exact Or.inl (lt_of_le_of_lt (le_of_eq he) g)
  · exact Or.inr ⟨he.trans ge, le_trans hi gi⟩

theorem actBetter_of_not_replace (m : MDP) (tie : List Act) (d : Dist)
    (s : MState) (a ba : Act)
    (hno : ¬(effDist m d s a < effDist m d s ba ∨
      (effDist m d s a = effDist m d s ba ∧ tieBeats tie a (some ba) = true))) :
    actBetter m tie d s ba a := by
  push_neg at hno
  rcases lt_or_eq_of_le hno.1 with h | h
  · exact Or.inl h
  · refine Or.inr ⟨h, ?_⟩
    have hidx : ¬(tie.indexOf a < tie.indexOf ba) := by
      simpa [tieBeats] using hno.2 h.symm
    exact le_of_not_lt hidx

theorem selStep_fold_spec (m : MDP) (tie : List Act) (d : Dist) (s : MState) :
    ∀ (l : List Act) (c : Act),
      ∃ a, l.foldl (selStep m tie d s) (some c, effDist m d s c) =
          (some a, effDist m d s a) ∧
        (a = c ∨ a ∈ l) ∧ actBetter m tie d s a c ∧
        ∀ b ∈ l, actBetter m tie d s a b := by
  intro l
  induction l with
  | nil =>
    intro c
    exact ⟨c, rfl, Or.inl rfl, actBetter_refl m tie d s c,
      fun b hb => absurd hb (List.not_mem_nil b)⟩
  | cons x l2 ih =>
    intro c
    rw [List.foldl_cons]
    by_cases hcond : effDist m d s x < effDist m d s c ∨
        (effDist m d s x = effDist m d s c ∧ tieBeats tie x (some c) = true)
    · have hsel : selStep m tie d s (some c, effDist m d s c) x =
          (some x, effDist m d s x) := by
        unfold selStep
        rw [if_pos hcond]
      rw [hsel]
      obtain ⟨a, ha, hmem, hax, hall⟩ := ih x
      have hxc : actBetter m tie d s x c := by
        rcases hcond with h | ⟨he, ht⟩
        · exact Or.inl h
        · refine Or.inr ⟨he, ?_⟩
          have hidx : tie.indexOf x < tie.indexOf c := by
            simpa [tieBeats] using ht
          exact le_of_lt hidx
      refine ⟨a, ha, ?_, actBetter_trans m tie d s hax hxc, ?_⟩
      · rcases hmem with rfl | hm
        · exact Or.inr (List.mem_cons_self a l2)
        · exact Or.inr (List.mem_cons_of_mem x hm)
      · intro b hb
        rcases List.mem_cons.mp hb with rfl | hb2
        · exact hax
        · exact hall b hb2
    · have hsel : selStep m tie d s (some c, effDist m d s c) x =
          (some c, effDist m d s c) := by
        unfold selStep
        rw [if_neg hcond]
      rw [hsel]
      obtain ⟨a, ha, hmem, hac, hall⟩ := ih c
      have hcx : actBetter m tie d s c x :=
        actBetter_of_not_replace m tie d s x c hcond
      refine ⟨a, ha, ?_, hac, ?_⟩
      · rcases hmem with rfl | hm
        · exact Or.inl rfl
        · exact Or.inr (List.mem_cons_of_mem x hm)
      · intro b hb
        rcases List.mem_cons.mp hb with rfl | hb2
        · exact actBetter_trans m tie d s hac hcx
        · exact hall b hb2

theorem selectAction_spec (m : MDP) (tie : List Act) (d : Dist) (s : MState) :
    (m.actions s = [] → selectAction m tie d s = (none, ⊤)) ∧
    (∀ x rest, m.actions s = x :: rest →
      ∃ a, selectAction m tie d s = (some a, effDist m d s a) ∧
        a ∈ m.actions s ∧ ∀ b ∈ m.actions s, actBetter m tie d s a b) := by
  constructor
  · intro he
    unfold selectAction
    rw [he]
    rfl
  · intro x rest he
    unfold selectAction
    rw [he, List.foldl_cons]
    have hfirst : selStep m tie d s (none, ⊤) x = (some x, effDist m d s x) := by
      unfold selStep
      rw [if_pos]
      rcases lt_or_eq_of_le (le_top : effDist m d s x ≤ ⊤) with h | h
      · exact Or.inl h
      · exact Or.inr ⟨h, rfl⟩
    rw [hfirst]
    obtain ⟨a, ha, hmem, hax, hall⟩ := selStep_fold_spec m tie d s rest x
    refine ⟨a, ha, ?_, ?_⟩
    · rcases hmem with rfl | hm
      · exact List.mem_cons_self a rest
      · exact List.mem_cons_of_mem x hm
    · intro b hb
      rcases List.mem_cons.mp hb with rfl | hb2
      · exact hax
      · exact hall b hb2

theorem extractPolicy_lookup (m : MDP) (tie : List Act) (d : Dist) :
    ∀ (l : List MState) (pol : MState → Option Act) (x : MState),
      (l.foldl (extStep m tie d) pol) x =
        if x ∈ l ∧ m.is_terminal x = false ∧
            ((selectAction m tie d x).1).isSome = true
        then (selectAction m tie d x).1 else pol x := by
  intro l
  induction l with
  | nil =>
    intro pol x
    rw [List.foldl_nil, if_neg]
    rintro ⟨hmem, -⟩
    exact List.not_mem_nil x hmem
  | cons s rest ih =>
    intro pol x
    rw [List.foldl_cons, ih]
    by_cases hrest : x ∈ rest ∧ m.is_terminal x = false ∧
        ((selectAction m tie d x).1).isSome = true
    · rw [if_pos hrest, if_pos ⟨List.mem_cons_of_mem s hrest.1, hrest.2⟩]
    · rw [if_neg hrest]
      by_cases hxs : x = s
      · subst hxs
        by_cases hterm : m.is_terminal x = true
        · have hstep : extStep m tie d pol x = pol := by
            unfold extStep
            rw [if_pos hterm]
          rw [hstep, if_neg]
          rintro ⟨-, h2, -⟩
          rw [hterm] at h2
          exact Bool.noConfusion h2
        · have hterm2 : m.is_terminal x = false := by
            simpa using hterm
          rcases hsel : (selectAction m tie d x).1 with _ | a
          · have hstep : extStep m tie d pol x = pol := by
              unfold extStep
              rw [if_neg hterm, hsel]
            rw [hstep, if_neg]
            rintro ⟨-, -, h3⟩
            simp at h3
          · have hstep : extStep m tie d pol x =
                Function.update pol x (some a) := by
              unfold extStep
              rw [if_neg hterm, hsel]
            rw [hstep, if_pos ⟨List.mem_cons_self x rest, hterm2, rfl⟩]
            simp [Function.update_apply]
      · rw [if_neg (fun hc => hrest ⟨(List.mem_cons.mp hc.1).resolve_left hxs, hc.2⟩)]
        by_cases hterm : m.is_terminal s = true
        · have hstep : extStep m tie d pol s = pol := by
            unfold extStep
            rw [if_pos hterm]
          rw [hstep]
        · rcases hsel : (selectAction m tie d s).1 with _ | a
          · have hstep : extStep m tie d pol s = pol := by
              unfold extStep
              rw [if_neg hterm, hsel]
            rw [hstep]
          · have hstep : extStep m tie d pol s =
                Function.update pol s (some a) := by
              unfold extStep
              rw [if_neg hterm, hsel]
            rw [hstep, Function.update_apply, if_neg hxs]

/-- Claim C2: for every enumerated non-terminal state, the policy extractor
evaluates each legal action through its most likely successor with the hole
override (the effective distance is infinity when that successor is tagged
`"H"`, otherwise the stored distance), and stores the action minimising the
effective distance, breaking ties by the fixed tie-break order, default
`RIGHT, DOWN, LEFT, UP`; a state with no legal actions receives no policy
entry, and querying the policy on any state absent from the dictionary
returns the absorbing action. -/
theorem policy_extraction_greedy (m : MDP) (rng : RNG) (s : MState)
    (hs : s ∈ m.states) (hterm : m.is_terminal s = false) :
    (m.actions s = [] → MyPolicyBuild m rng defaultTie s = none) ∧
    (∀ x rest, m.actions s = x :: rest →
      ∃ a, MyPolicyBuild m rng defaultTie s = some a ∧
        MyPolicyDecision m rng defaultTie s = a ∧ a ∈ m.actions s ∧
        ∀ b ∈ m.actions s, actBetter m defaultTie (buildD m) s a b) ∧
    (∀ x, MyPolicyBuild m rng defaultTie x = none →
      MyPolicyDecision m rng defaultTie x = ABSORB) := by
  refine ⟨?_, ?_, ?_⟩
  · intro he
    show extractPolicy m defaultTie (buildD m) s = none
    unfold extractPolicy
    rw [extractPolicy_lookup m defaultTie (buildD m) m.states _ s, if_neg]
    rintro ⟨-, -, h3⟩
    rw [(selectAction_spec m defaultTie (buildD m) s).1 he] at h3
    simp at h3
  · intro x rest he
    obtain ⟨a, ha, hmem, hall⟩ :=
      (selectAction_spec m defaultTie (buildD m) s).2 x rest he
    have hbuild : MyPolicyBuild m rng defaultTie s = some a := by
      show extractPolicy m defaultTie (buildD m) s = some a
      unfold extractPolicy
      rw [extractPolicy_lookup m defaultTie (buildD m) m.states _ s,
        if_pos ⟨hs, hterm, by rw [ha]; rfl⟩, ha]
    refine ⟨a, hbuild, ?_, hmem, hall⟩
    show (MyPolicyBuild m rng defaultTie s).getD ABSORB = a
    rw [hbuild]
    rfl
  · intro x hx
    show (MyPolicyBuild m rng defaultTie x).getD ABSORB = ABSORB
    rw [hx]
    rfl

/-- Witness for claim C2 at the two-cell corridor: `RIGHT` (leading to the
goal) is selected at the start state. -/
theorem policy_extraction_greedy_witness :
    ∃ a, MyPolicyBuild mdpW2 ⟨0⟩ defaultTie exS = some a ∧
      MyPolicyDecision mdpW2 ⟨0⟩ defaultTie exS = a ∧ a ∈ mdpW2.actions exS ∧
      ∀ b ∈ mdpW2.actions exS, actBetter mdpW2 defaultTie (buildD mdpW2) exS a b :=
  (policy_extraction_greedy mdpW2 ⟨0⟩ exS (by decide) (by decide)).2.1
    RIGHT [LEFT] rfl

/-! The iterative evaluator: an exact characterisation of the bounded
fixed-point loop. -/

theorem evalLoop_succ {n : ℕ} (P : Matrix (Fin n) (Fin n) ℚ) (r : Fin n → ℚ)
    (γ eps : ℚ) (v : Fin n → ℚ) (k : ℕ) :
    evalLoop P r γ eps v (k + 1) =
      if supDiff (bellman_update v P r γ) v < eps * (1 - γ) / γ then v
      else evalLoop P r γ eps (bellman_update v P r γ) k := rfl

theorem evalLoop_spec {n : ℕ} (P : Matrix (Fin n) (Fin n) ℚ) (r : Fin n → ℚ)
    (γ eps : ℚ) :
    ∀ (fuel k : ℕ),
      ∃ j, j ≤ fuel ∧
        evalLoop P r γ eps (bellmanIter P r γ k) fuel =
          bellmanIter P r γ (k + j) ∧
        (∀ i, i < j → ¬stopCond P r γ eps (k + i)) ∧
        (j < fuel → stopCond P r γ eps (k + j)) := by
  intro fuel
  induction fuel with
  | zero =>
    intro k
    exact ⟨0, le_refl 0, by rw [Nat.add_zero]; rfl,
      fun i hi => absurd hi (Nat.not_lt_zero i),
      fun h => absurd h (lt_irrefl 0)⟩
  | succ fuel ih =>
    intro k
    by_cases hstop : stopCond P r γ eps k
    · have hstop2 : supDiff (bellman_update (bellmanIter P r γ k) P r γ)
          (bellmanIter P r γ k) < eps * (1 - γ) / γ := hstop
      refine ⟨0, Nat.zero_le _, ?_, fun i hi => absurd hi (Nat.not_lt_zero i),
        fun _ => by rw [Nat.add_zero]; exact hstop⟩
      rw [evalLoop_succ, if_pos hstop2, Nat.add_zero]
    · have hstop2 : ¬(supDiff (bellman_update (bellmanIter P r γ k) P r γ)
          (bellmanIter P r γ k) < eps * (1 - γ) / γ) := hstop
      obtain ⟨j, hj, heq, hpre, hlast⟩ := ih (k + 1)
      refine ⟨j + 1, Nat.succ_le_succ hj, ?_, ?_, ?_⟩
      · rw [evalLoop_succ, if_neg hstop2]
        have hB : bellman_update (bellmanIter P r γ k) P r γ =
            bellmanIter P r γ (k + 1) := rfl
        rw [hB, show k + (j + 1) = k + 1 + j from by omega]
        exact heq
      · intro i hi
        cases i with
        | zero =>
          rw [Nat.add_zero]
          exact hstop
        | succ i2 =>
          have hp := hpre i2 (by omega)
          rw [show k + (i2 + 1) = k + 1 + i2 from by omega]
          exact hp
      · intro hlt
        have hl := hlast (by omega)
        rw [show k + (j + 1) = k + 1 + j from by omega]
        exact hl

/-- Claim C1 (amended): for row-stochastic `P`, `γ ∈ (0,1]`, `eps > 0` and
any budget, the iterative evaluator starts from the zero vector and applies
Bellman updates until either the supremum-norm change of an application drops
below `eps * (1 - γ) / γ` — in which case it returns the iterate from before
that application, discarding the newly computed one — or the budget of
`max_iters` applications is exhausted, in which case it returns the last
computed iterate; nothing in the return value distinguishes the two cases. -/
theorem iterative_policy_evaluation_spec {n : ℕ}
    (P : Matrix (Fin n) (Fin n) ℚ) (r : Fin n → ℚ) (γ eps : ℚ)
    (max_iters : ℕ) (hP : rowStochastic P) (hγ0 : 0 < γ) (hγ1 : γ ≤ 1)
    (heps : 0 < eps) :
    ∃ k, k ≤ max_iters ∧
      iterative_policy_evaluation P r γ eps max_iters = bellmanIter P r γ k ∧
      (∀ i, i < k → ¬stopCond P r γ eps i) ∧
      (k < max_iters → stopCond P r γ eps k) := by
  obtain ⟨j, hj, heq, hpre, hlast⟩ := evalLoop_spec P r γ eps max_iters 0
  refine ⟨j, hj, ?_, ?_, ?_⟩
  · have h0 : (fun _ : Fin n => (0 : ℚ)) = bellmanIter P r γ 0 := rfl
    show evalLoop P r γ eps (fun _ => 0) max_iters = _
    rw [h0, heq, Nat.zero_add]
  · intro i hi
    have hp := hpre i hi
    rwa [Nat.zero_add] at hp
  · intro h
    have hl := hlast h
    rwa [Nat.zero_add] at hl

/-- Claim C1 as stated is false at a concrete input: with the row-stochastic
matrix `P = [[1]]`, `r = [1]`, `γ = 1/2 ∈ (0,1]`, `eps = 3 > 0` and budget 5,
the tolerance test passes right after the first Bellman application, so the
loop stops early; the last computed iterate is `bellmanIter 1` (the all-ones
vector), but the function returns `bellmanIter 0` (the zero vector), which
differs from it. -/
theorem iterative_returns_previous_iterate :
    rowStochastic Pone ∧ (0 : ℚ) < 1/2 ∧ (1/2 : ℚ) ≤ 1 ∧ (0 : ℚ) < 3 ∧
    stopCond Pone rone (1/2) 3 0 ∧
    iterative_policy_evaluation Pone rone (1/2) 3 5 =
      bellmanIter Pone rone (1/2) 0 ∧
    bellmanIter Pone rone (1/2) 1 ≠ bellmanIter Pone rone (1/2) 0 := by
  refine ⟨⟨fun i j => by norm_num [Pone], fun i => by simp [Pone]⟩,
    by norm_num, by norm_num, by norm_num, ?_, ?_, ?_⟩
  · unfold stopCond supDiff bellman_update bellmanIter
    simp [Matrix.mulVec, Matrix.dotProduct, Pone, rone, List.finRange]
    norm_num
  · have hcond : supDiff (bellman_update (fun _ => (0:ℚ)) Pone rone (1/2))
        (fun _ => (0:ℚ)) < 3 * (1 - 1/2) / (1/2) := by
      unfold supDiff bellman_update
      simp [Matrix.mulVec, Matrix.dotProduct, Pone, rone, List.finRange]
      norm_num
    show evalLoop Pone rone (1/2) 3 (fun _ => 0) 5 = _
    rw [show (5:ℕ) = 4 + 1 from rfl, evalLoop_succ, if_pos hcond]
    rfl
  · intro h
    have h0 := congrFun h 0
    simp [bellmanIter, bellman_update, Matrix.mulVec, Matrix.dotProduct,
      Pone, rone] at h0

/-- Witness for the amended claim C1 at a concrete admissible input. -/
theorem iterative_policy_evaluation_spec_witness :
    ∃ k, k ≤ 5 ∧
      iterative_policy_evaluation Pone rone (1/2) 3 5 =
        bellmanIter Pone rone (1/2) k ∧
      (∀ i, i < k → ¬stopCond Pone rone (1/2) 3 i) ∧
      (k < 5 → stopCond Pone rone (1/2) 3 k) :=
  iterative_policy_evaluation_spec Pone rone (1/2) 3 5
    ⟨fun i j => by norm_num [Pone], fun i => by simp [Pone]⟩
    (by norm_num) (by norm_num) (by norm_num)

/-- Claim C6: the evaluation entry point recognises exactly the two method
selectors `"exact"` and `"iterative"`; any other string makes it fail with an
invalid-argument error naming the offending value, and no value vector is
computed or returned to the caller. -/
theorem run_rejects_unknown_method {n : ℕ} (P : Matrix (Fin n) (Fin n) ℚ)
    (r : Fin n → ℚ) (γ : ℚ) (method : String)
    (h1 : method ≠ "exact") (h2 : method ≠ "iterative") :
    run P r γ method = Except.error (EvalError.unknownMethod method) := by
  unfold run
  rw [if_neg h1, if_neg h2]

/-- Witness for claim C6: the method string `"bogus"` is rejected with an
error naming `"bogus"`. -/
theorem run_rejects_unknown_method_witness :
    run Pone rone (9/10) "bogus" =
      Except.error (EvalError.unknownMethod "bogus") :=
  run_rejects_unknown_method Pone rone (9/10) "bogus" (by decide) (by decide)

/-! The exact evaluator: adjugate algebra for the linear solve. -/

theorem solve_algebra {n : ℕ} (A : Matrix (Fin n) (Fin n) ℚ)
    (hd : A.det ≠ 0) (r : Fin n → ℚ) :
    A.mulVec (A.det⁻¹ • A.adjugate.mulVec r) = r := by
  rw [Matrix.mulVec_smul, Matrix.mulVec_mulVec, Matrix.mul_adjugate,
    Matrix.smul_mulVec_assoc, Matrix.one_mulVec, smul_smul,
    inv_mul_cancel₀ hd, one_smul]

theorem solve_unique {n : ℕ} (A : Matrix (Fin n) (Fin n) ℚ)
    (hd : A.det ≠ 0) (w : Fin n → ℚ) :
    A.det⁻¹ • A.adjugate.mulVec (A.mulVec w) = w := by
  rw [Matrix.mulVec_mulVec, Matrix.adjugate_mul, Matrix.smul_mulVec_assoc,
    Matrix.one_mulVec, smul_smul, inv_mul_cancel₀ hd, one_smul]

/-- Claim C7: whenever `I - γ P` is nonsingular, the exact evaluator returns
the unique solution of the linear system `(I - γP) v = r`; when the system is
singular it fails with a solver error, and the entry point propagates that
error for the `"exact"` method without falling back to iterative
evaluation. -/
theorem exact_policy_evaluation_spec {n : ℕ} (P : Matrix (Fin n) (Fin n) ℚ)
    (r : Fin n → ℚ) (γ : ℚ) :
    ((1 - γ • P).det ≠ 0 →
      ∃ v, exact_policy_evaluation P r γ = Except.ok v ∧
        (1 - γ • P).mulVec v = r ∧
        ∀ w, (1 - γ • P).mulVec w = r → w = v) ∧
    ((1 - γ • P).det = 0 →
      exact_policy_evaluation P r γ = Except.error EvalError.singularMatrix ∧
      run P r γ "exact" = Except.error EvalError.singularMatrix) := by
  constructor
  · intro hd
    refine ⟨(1 - γ • P).det⁻¹ • (1 - γ • P).adjugate.mulVec r, ?_,
      solve_algebra _ hd r, ?_⟩
    · unfold exact_policy_evaluation
      rw [if_neg hd]
    · intro w hw
      have hu := solve_unique (1 - γ • P) hd w
      rw [hw] at hu
      exact hu.symm
  · intro hd
    have hexact : exact_policy_evaluation P r γ =
        Except.error EvalError.singularMatrix := by
      unfold exact_policy_evaluation
      rw [if_pos hd]
    refine ⟨hexact, ?_⟩
    unfold run
    rw [if_pos rfl, hexact]

/-- Witness for claim C7: a nonsingular 1×1 system is solved uniquely, and
the singular system at `γ = 1` raises the solver error through both the exact
evaluator and the `"exact"` branch of the entry point. -/
theorem exact_policy_evaluation_spec_witness :
    (∃ v, exact_policy_evaluation Pone rone (1/2) = Except.ok v ∧
      (1 - (1/2 : ℚ) • Pone).mulVec v = rone ∧
      ∀ w, (1 - (1/2 : ℚ) • Pone).mulVec w = rone → w = v) ∧
    (exact_policy_evaluation Pone rone 1 =
        Except.error EvalError.singularMatrix ∧
      run Pone rone 1 "exact" = Except.error EvalError.singularMatrix) :=
  ⟨(exact_policy_evaluation_spec Pone rone (1/2)).1 (by
      simp [Matrix.det_fin_one, Matrix.sub_apply, Matrix.smul_apply,
        Matrix.one_apply, Pone]
      norm_num),
   (exact_policy_evaluation_spec Pone rone 1).2 (by
      simp [Matrix.det_fin_one, Matrix.sub_apply, Matrix.smul_apply,
        Matrix.one_apply, Pone])⟩

/-- Claim C8: policy construction is deterministic and independent of the
supplied random generator: the generator parameter is accepted for interface
compatibility but never consulted during construction, so constructions with
any two generators — and any two repeated runs — yield identical
state-to-action mappings. -/
theorem policy_construction_deterministic (m : MDP) (tie : List Act)
    (rng1 rng2 : RNG) :
    MyPolicyBuild m rng1 tie = MyPolicyBuild m rng2 tie ∧
    (∀ s, MyPolicyDecision m rng1 tie s = MyPolicyDecision m rng2 tie s) ∧
    MyPolicyBuild m rng1 tie = MyPolicyBuild m rng1 tie :=
  ⟨rfl, fun _ => rfl, rfl⟩

end Hoja7
